import Mathlib

/-!
Shallow embedding of `pkg/workerpool/job_result.go` from the daggerpool
repository, together with proofs of the derived-view properties of the
result model (`DAGResult`) and the pure graph helpers built on it.

Modelling conventions:
- Go maps (`DAGResult`, `DAG`, the DFS `memo`/`seen` sets) are association
  lists; `lookupA` returns the first binding, which coincides with Go map
  lookup because Go maps have unique keys (theorems that depend on key
  uniqueness take a `Nodup` hypothesis on the key list).
- Go `error` values are `Option String` (`none` = nil).
- `sort.Strings` / `sort.Slice` are an insertion sort over the byte-wise
  (code-point-wise) lexicographic order that Go uses on strings; for
  strings, equal elements are identical, so any correct sort produces the
  same list as the Go sort.
- The two recursive depth-first traversals in the source (`Subtree`'s dfs
  and `BoundarySubtrees`'s hasNotSuccessInSubtree) are embedded with a
  fuel parameter.  In the source the recursion depth is bounded by the
  seen/visiting set, which only accumulates distinct keys of the edge map,
  so a fuel of (number of keys + 1) is never exhausted.
-/

inductive JobStatus where
  | unknown
  | success
  | inProgress
  | skipped
  | failed
deriving DecidableEq, Repr

structure JobResult where
  name : String
  status : JobStatus
  error : Option String
deriving DecidableEq, Repr

/-- the reserved sentinel key `timeout_error` from the source. -/
def timeoutErrorKey : String := "timeout_error"

/-- association-list model of Go's `type DAGResult map[string]*JobResult`. -/
abbrev DAGResult := List (String × JobResult)

/-- association-list model of Go's `type DAG map[string][]string`. -/
abbrev DAG := List (String × List String)

/-- first-binding lookup in an association list (Go map read). -/
def lookupA {α : Type} : List (String × α) → String → Option α
  | [], _ => none
  | e :: l, k => if e.1 = k then some e.2 else lookupA l k

/-- the key list of an association list (Go map key set). -/
def keysA {α : Type} (l : List (String × α)) : List String := l.map Prod.fst

/-- adjacency read `dag[k]`: a missing key yields the empty (nil) list. -/
def adj (d : DAG) (k : String) : List String := (lookupA d k).getD []

/-- byte-wise lexicographic strict order on char lists, by code point. -/
def charListLtB : List Char → List Char → Bool
  | [], [] => false
  | [], _ :: _ => true
  | _ :: _, [] => false
  | a :: as, b :: bs =>
    if a.toNat < b.toNat then true
    else if b.toNat < a.toNat then false
    else charListLtB as bs

/-- Go's `<` on strings (lexicographic by code point). -/
def strLtB (a b : String) : Bool := charListLtB a.data b.data

/-- Go's `<=` on strings. -/
def strLeB (a b : String) : Bool := !(strLtB b a)

/-- ordered insertion used by the model of `sort.Strings` / `sort.Slice`. -/
def insertLe {α : Type} (le : α → α → Bool) (a : α) : List α → List α
  | [] => [a]
  | b :: l => if le a b then a :: b :: l else b :: insertLe le a l

/-- insertion sort; models Go's sorting (for the orders used here Go's
sort returns the unique le-sorted permutation up to ties). -/
def sortLe {α : Type} (le : α → α → Bool) : List α → List α
  | [] => []
  | a :: l => insertLe le a (sortLe le l)

/-- model of `sort.Strings`. -/
def sortStrings : List String → List String := sortLe strLeB

/-- `DAGResult.get`: total read, missing keys become an Unknown result. -/
def DAGResult.get (r : DAGResult) (job : String) : JobResult :=
  match lookupA r job with
  | some jr => jr
  | none => { name := job, status := .unknown, error := none }

/-- `DAGResult.isSuccess`. -/
def DAGResult.isSuccess (r : DAGResult) (job : String) : Bool :=
  decide ((r.get job).status = JobStatus.success)

/-- `DAGResult.TimeoutError`: store the synthetic failed entry under the
sentinel key.  The rendered seconds of the Go `time.Duration` argument are
taken as an opaque string (floating-point formatting is out of scope). -/
def DAGResult.TimeoutError (r : DAGResult) (deadline : String) : DAGResult :=
  (timeoutErrorKey,
    { name := "", status := .failed, error := some ("timeout after " ++ deadline) })
    :: r.filter (fun e => !(decide (e.1 = timeoutErrorKey)))

/-- `DAGResult.IsFailed`. -/
def DAGResult.IsFailed (r : DAGResult) : Bool :=
  r.any (fun e => decide (e.2.status = JobStatus.failed))

/-- `DAGResult.IsTimeouted`. -/
def DAGResult.IsTimeouted (r : DAGResult) : Bool :=
  (lookupA r timeoutErrorKey).isSome

/-- `DAGResult.orderedJobs`: the sorted key list. -/
def DAGResult.orderedJobs (r : DAGResult) : List String := sortStrings (keysA r)

/-- `DAGResult.IsReady`. -/
def DAGResult.IsReady (r : DAGResult) : Bool :=
  r.orderedJobs.all (fun k =>
    !(decide ((r.get k).status = JobStatus.skipped)
      || decide ((r.get k).status = JobStatus.inProgress)
      || decide ((r.get k).status = JobStatus.failed)))

/-- `DAGResult.IsSuccessful`. -/
def DAGResult.IsSuccessful (r : DAGResult) : Bool :=
  r.all (fun e => decide (e.2.status = JobStatus.success))

/-- `DAGResult.FirstInProgress`. -/
def DAGResult.FirstInProgress (r : DAGResult) : Option JobResult :=
  match r.orderedJobs.find? (fun k => decide ((r.get k).status = JobStatus.inProgress)) with
  | some k => some (r.get k)
  | none => none

/-- `DAGResult.Blockers`. -/
def DAGResult.Blockers (r : DAGResult) (dag : DAG) (job : String) : List String :=
  let deps := adj dag job
  if deps.isEmpty then []
  else sortStrings (deps.filter (fun d => !(r.isSuccess d)))

/-- the recursive `dfs` closure inside `DAGResult.Subtree`; `out` doubles
as the `seen` set (the source adds a node to both in the same step), and
the `for _, s := range dag[n]` loop is a fold of the node step over the
adjacency list. -/
def dfsNode (d : DAG) : Nat → List String → String → List String
  | 0, out, _ => out
  | fuel + 1, out, n => if n ∈ out then out else (adj d n).foldl (dfsNode d fuel) (n :: out)

/-- the successor loop of `Subtree`'s dfs, as a standalone function. -/
def dfsSeq (d : DAG) (fuel : Nat) (out : List String) (l : List String) : List String :=
  l.foldl (dfsNode d fuel) out

/-- `DAGResult.Subtree` (the receiver is unused in the source as well). -/
def DAGResult.Subtree (_r : DAGResult) (dag : DAG) (root : String) : List String :=
  sortStrings (dfsNode dag ((keysA dag).length + 1) [] root)

structure FrontierItem where
  Job : String
  Status : JobStatus
  BlockedBy : List String
  Subtree : List String
  dagResult : DAGResult
deriving DecidableEq, Repr

/-- the comparison `items[i].Job < items[j].Job` handed to `sort.Slice`. -/
def fiLeB (a b : FrontierItem) : Bool := strLeB a.Job b.Job

/-- one `rev[dep] = append(rev[dep], n)` step of `reverseDAG` (a Go map
assignment creates the key when it is absent). -/
def appendEdge (rev : DAG) (dep n : String) : DAG :=
  if (lookupA rev dep).isSome then
    rev.map (fun e => if e.1 = dep then (e.1, e.2 ++ [n]) else e)
  else rev ++ [(dep, [n])]

/-- `DAGResult.reverseDAG` (the receiver is unused in the source). -/
def reverseDAG (dag : DAG) : DAG :=
  dag.foldl (fun rv e => e.2.foldl (fun rv2 dep => appendEdge rv2 dep e.1) rv)
    (dag.map (fun e => (e.1, ([] : List String))))

/-- `DAGResult.Frontiers`: iterate over the jobs of the DAG, skip
Success, keep Failed, InProgress and unblocked jobs, sort by job name
(the source's local variables `rev`, `jr` and `blockedBy` are inlined;
`len(blockedBy) == 0` is written as `= []`). -/
def DAGResult.Frontiers (r : DAGResult) (dag : DAG) : List FrontierItem :=
  sortLe fiLeB (dag.filterMap (fun e =>
    if (r.get e.1).status = .success then none
    else if (r.get e.1).status = .failed ∨ (r.get e.1).status = .inProgress
        ∨ r.Blockers dag e.1 = [] then
      some { Job := e.1, Status := (r.get e.1).status, BlockedBy := r.Blockers dag e.1,
             Subtree := r.Subtree (reverseDAG dag) e.1, dagResult := r }
    else none))

/-- the memoised `hasNotSuccessInSubtree` closure of `BoundarySubtrees`:
memo lookup, visiting guard, then the successor loop; the computed value
is recorded in the memo on return.  The source's early `return true` is
a fold whose first component, once true, makes the remaining iterations
no-ops, which leaves exactly the same memo and result. -/
def hnsNode (succ : DAG) (r : DAGResult) :
    Nat → List String → List (String × Bool) → String → Bool × List (String × Bool)
  | 0, _, memo, _ => (false, memo)
  | fuel + 1, visiting, memo, job =>
    match lookupA memo job with
    | some v => (v, memo)
    | none =>
      if job ∈ visiting then (false, memo)
      else
        match (adj succ job).foldl (fun acc s =>
            if acc.1 then acc
            else if r.isSuccess s then hnsNode succ r fuel (job :: visiting) acc.2 s
            else (true, acc.2)) (false, memo) with
        | (b, m) => (b, (job, b) :: m)

/-- the `for _, s := range succ[job]` loop of `hasNotSuccessInSubtree`,
as a standalone function. -/
def hnsSeq (succ : DAG) (r : DAGResult) (fuel : Nat) (visiting : List String)
    (acc : Bool × List (String × Bool)) (l : List String) : Bool × List (String × Bool) :=
  l.foldl (fun acc s =>
    if acc.1 then acc
    else if r.isSuccess s then hnsNode succ r fuel visiting acc.2 s
    else (true, acc.2)) acc

/-- the body of the `for job := range dag` loop of `BoundarySubtrees`:
skip non-Success jobs, otherwise run the memoised dfs (with an empty
visiting set and the memo accumulated so far) and collect the job when
its subtree contains a non-Success node. -/
def boundaryStep (succ : DAG) (r : DAGResult) (fuel : Nat)
    (acc : List String × List (String × Bool)) (e : String × List String) :
    List String × List (String × Bool) :=
  if r.isSuccess e.1 then
    match hnsNode succ r fuel [] acc.2 e.1 with
    | (b, m) => (if b then acc.1 ++ [e.1] else acc.1, m)
  else acc

/-- `DAGResult.BoundarySubtrees`. -/
def DAGResult.BoundarySubtrees (r : DAGResult) (dag : DAG) : List String :=
  sortStrings (dag.foldl
    (boundaryStep (reverseDAG dag) r ((keysA (reverseDAG dag)).length + 1))
    (([] : List String), ([] : List (String × Bool)))).1


/-- reflexive-transitive reachability along the directed edges of `d`. -/
inductive Reach (d : DAG) : String → String → Prop
  | refl (n : String) : Reach d n n
  | step {n s m : String} : s ∈ adj d n → Reach d s m → Reach d n m

/-- reachability along at least one directed edge of `d`. -/
inductive ReachPlus (d : DAG) : String → String → Prop
  | single {n s : String} : s ∈ adj d n → ReachPlus d n s
  | step {n s m : String} : s ∈ adj d n → ReachPlus d s m → ReachPlus d n m

/-- reachability along edges of `d` by a path all of whose nodes avoid
the set `A` (the exact set a seen-set dfs started at `A` adds). -/
inductive RA (d : DAG) (A : List String) : String → String → Prop
  | refl (n : String) : n ∉ A → RA d A n n
  | step {n s m : String} : n ∉ A → s ∈ adj d n → RA d A s m → RA d A n m
/-- correctness condition of a memo produced by the dfs of
`BoundarySubtrees`: a recorded value is true exactly when some node
reachable from the recorded job (over at least one edge) is not
Success. -/
def MemoOK (g : DAG) (r : DAGResult) (memo : List (String × Bool)) : Prop :=
  ∀ j b, lookupA memo j = some b →
    (b = true ↔ ∃ n, ReachPlus g j n ∧ r.isSuccess n = false)

/-- the condition claim C1 states for both predicates: every entry other
than the synthetic timeout entry has status Success (modelled from the
spec wording, for comparison against the code's behaviour). -/
def allJobsSuccessExclSentinel (r : DAGResult) : Bool :=
  r.all (fun e => decide (e.1 = timeoutErrorKey) || decide (e.2.status = JobStatus.success))

def rC1cex : DAGResult := [("a", { name := "a", status := .unknown, error := none })]

def rC8w : DAGResult :=
  [("c", { name := "c", status := .inProgress, error := none }),
   ("b", { name := "b", status := .inProgress, error := none }),
   ("a", { name := "a", status := .success, error := none })]

def dC10cex : DAG := [("a", ["b"])]

def dC10w : DAG := [("a", []), ("b", ["a"])]

/-- number of distinct keys of `d` not yet in the seen set `A`. -/
def unseenCount (d : DAG) (A : List String) : Nat :=
  ((keysA d).dedup.filter (fun k => !(decide (k ∈ A)))).length

def dC4w : DAG := [("a", [])]

def itC4w : FrontierItem :=
  { Job := "a", Status := .unknown, BlockedBy := [], Subtree := ["a"], dagResult := rC1cex }

def dC3w : DAG := [("a", []), ("b", ["a"])]

def rC3w : DAGResult :=
  [("a", { name := "a", status := .success, error := none }),
   ("b", { name := "b", status := .unknown, error := none })]

def rankC3w : String → Nat := fun s => if s = "a" then 1 else 0


/-! Basic facts about association-list lookup. -/

@[simp] theorem keysA_nil {α : Type} : keysA ([] : List (String × α)) = [] := rfl

@[simp] theorem keysA_cons {α : Type} (e : String × α) (l : List (String × α)) :
    keysA (e :: l) = e.1 :: keysA l := rfl

theorem lookupA_eq_none {α : Type} (l : List (String × α)) (k : String) :
    lookupA l k = none ↔ k ∉ keysA l := by
  induction l with
  | nil => simp [lookupA]
  | cons e l ih =>
    by_cases h : e.1 = k
    · subst h
      simp [lookupA]
    · have hk : ¬k = e.1 := fun hh => h hh.symm
      rw [show lookupA (e :: l) k = lookupA l k from by simp [lookupA, h]]
      rw [ih, keysA_cons, List.mem_cons]
      tauto

theorem lookupA_mem {α : Type} {l : List (String × α)} {k : String} {v : α}
    (h : lookupA l k = some v) : (k, v) ∈ l := by
  induction l with
  | nil => simp [lookupA] at h
  | cons e l ih =>
    by_cases he : e.1 = k
    · subst he
      have h2 : e.2 = v := by simpa [lookupA] using h
      subst h2
      cases e
      exact List.mem_cons_self _ _
    · simp only [lookupA, if_neg he] at h
      exact List.mem_cons_of_mem _ (ih h)

theorem lookupA_of_mem_nodup {α : Type} {l : List (String × α)} {k : String} {v : α}
    (hnd : (keysA l).Nodup) (h : (k, v) ∈ l) : lookupA l k = some v := by
  induction l with
  | nil => simp at h
  | cons e l ih =>
    rw [keysA_cons, List.nodup_cons] at hnd
    rcases List.mem_cons.mp h with h | h
    · subst h
      simp [lookupA]
    · have hk : e.1 ≠ k := by
        intro he
        exact hnd.1 (he ▸ List.mem_map.mpr ⟨(k, v), h, rfl⟩)
      simp only [lookupA, if_neg hk]
      exact ih hnd.2 h

theorem mem_keysA {α : Type} {l : List (String × α)} {k : String} :
    k ∈ keysA l ↔ ∃ v, (k, v) ∈ l := by
  simp only [keysA, List.mem_map]
  constructor
  · rintro ⟨⟨a, b⟩, hm, rfl⟩
    exact ⟨b, hm⟩
  · rintro ⟨v, hm⟩
    exact ⟨(k, v), hm, rfl⟩

theorem lookupA_isSome_iff {α : Type} (l : List (String × α)) (k : String) :
    (lookupA l k).isSome = true ↔ k ∈ keysA l := by
  rcases h : lookupA l k with _ | v
  · simp only [Option.isSome_none]
    simp only [Bool.false_eq_true, false_iff]
    exact (lookupA_eq_none l k).mp h
  · simp only [Option.isSome_some, true_iff]
    exact List.mem_map.mpr ⟨(k, v), lookupA_mem h, rfl⟩

/-! The string order used by `sort.Strings`. -/

theorem charListLtB_irrefl : ∀ l, charListLtB l l = false := by
  intro l
  induction l with
  | nil => rfl
  | cons a l ih => simp [charListLtB, ih]

theorem charListLtB_trans : ∀ {a b c : List Char}, charListLtB a b = true →
    charListLtB b c = true → charListLtB a c = true := by
  intro a
  induction a with
  | nil =>
    intro b c hab hbc
    cases b with
    | nil => simp [charListLtB] at hab
    | cons y ys =>
      cases c with
      | nil => simp [charListLtB] at hbc
      | cons z zs => simp [charListLtB]
  | cons x xs ih =>
    intro b c hab hbc
    cases b with
    | nil => simp [charListLtB] at hab
    | cons y ys =>
      cases c with
      | nil => simp [charListLtB] at hbc
      | cons z zs =>
        simp only [charListLtB] at hab hbc ⊢
        rcases Nat.lt_trichotomy x.toNat y.toNat with h1 | h1 | h1
        · rcases Nat.lt_trichotomy y.toNat z.toNat with h2 | h2 | h2
          · rw [if_pos (Nat.lt_trans h1 h2)]
          · rw [if_pos (h2 ▸ h1)]
          · rw [if_neg (by omega), if_pos h2] at hbc
            exact absurd hbc Bool.false_ne_true
        · rw [if_neg (by omega), if_neg (by omega)] at hab
          rcases Nat.lt_trichotomy y.toNat z.toNat with h2 | h2 | h2
          · rw [if_pos (by omega)]
          · rw [if_neg (by omega), if_neg (by omega)] at hbc
            rw [if_neg (by omega), if_neg (by omega)]
            exact ih hab hbc
          · rw [if_neg (by omega), if_pos h2] at hbc
            exact absurd hbc Bool.false_ne_true
        · rw [if_neg (by omega), if_pos h1] at hab
          exact absurd hab Bool.false_ne_true

theorem charListLtB_eq_of_not : ∀ {a b : List Char}, charListLtB a b = false →
    charListLtB b a = false → a = b := by
  intro a
  induction a with
  | nil =>
    intro b hab _
    cases b with
    | nil => rfl
    | cons y ys => simp [charListLtB] at hab
  | cons x xs ih =>
    intro b hab hba
    cases b with
    | nil => simp [charListLtB] at hba
    | cons y ys =>
      simp only [charListLtB] at hab hba
      rcases Nat.lt_trichotomy x.toNat y.toNat with h1 | h1 | h1
      · rw [if_pos h1] at hab
        simp at hab
      · have hc : x = y := Char.ext (UInt32.ext h1)
        subst hc
        rw [if_neg (by omega), if_neg (by omega)] at hab hba
        rw [ih hab hba]
      · rw [if_pos h1] at hba
        simp at hba

theorem stringDataEq {a b : String} (h : a.data = b.data) : a = b := by
  cases a
  cases b
  simp_all

theorem strLeB_iff (a b : String) : strLeB a b = true ↔ strLtB b a = false := by
  unfold strLeB
  cases strLtB b a <;> simp

theorem strLeB_refl (a : String) : strLeB a a = true := by
  rw [strLeB_iff]
  exact charListLtB_irrefl a.data

theorem strLeB_total (a b : String) : strLeB a b = true ∨ strLeB b a = true := by
  rcases hab : charListLtB a.data b.data with _ | _
  · right
    rw [strLeB_iff]
    exact hab
  · rcases hba : charListLtB b.data a.data with _ | _
    · left
      rw [strLeB_iff]
      exact hba
    · have h := charListLtB_trans hab hba
      rw [charListLtB_irrefl] at h
      exact absurd h Bool.false_ne_true

theorem strLeB_trans (a b c : String) (h1 : strLeB a b = true) (h2 : strLeB b c = true) :
    strLeB a c = true := by
  rw [strLeB_iff] at h1 h2 ⊢
  show charListLtB c.data a.data = false
  rcases hca : charListLtB c.data a.data with _ | _
  · rfl
  · rcases hab : charListLtB a.data b.data with _ | _
    · have hd := charListLtB_eq_of_not hab h1
      rw [hd] at hca
      rw [show strLtB c b = charListLtB c.data b.data from rfl] at h2
      rw [h2] at hca
      exact absurd hca Bool.false_ne_true
    · have h := charListLtB_trans hca hab
      rw [show strLtB c b = charListLtB c.data b.data from rfl] at h2
      rw [h2] at h
      exact absurd h Bool.false_ne_true

theorem strLeB_antisymm {a b : String} (h1 : strLeB a b = true) (h2 : strLeB b a = true) :
    a = b := by
  rw [strLeB_iff] at h1 h2
  exact stringDataEq (charListLtB_eq_of_not h2 h1)

theorem strLtB_of_le_ne {a b : String} (hle : strLeB a b = true) (hne : a ≠ b) :
    strLtB a b = true := by
  rcases h : strLtB a b with _ | _
  · rw [strLeB_iff] at hle
    exact absurd (stringDataEq (charListLtB_eq_of_not h hle)) hne
  · rfl

/-! Insertion-sort lemmas. -/

theorem mem_insertLe {α : Type} (le : α → α → Bool) (a x : α) (l : List α) :
    x ∈ insertLe le a l ↔ x = a ∨ x ∈ l := by
  induction l with
  | nil => simp [insertLe]
  | cons b l ih =>
    by_cases h : le a b = true
    · simp [insertLe, h, List.mem_cons]
    · simp only [insertLe, if_neg h, List.mem_cons, ih]
      tauto

theorem insertLe_perm {α : Type} (le : α → α → Bool) (a : α) (l : List α) :
    (insertLe le a l).Perm (a :: l) := by
  induction l with
  | nil => simp [insertLe]
  | cons b l ih =>
    by_cases h : le a b = true
    · simp [insertLe, h]
    · rw [insertLe, if_neg h]
      exact (ih.cons b).trans (List.Perm.swap a b l)

theorem sortLe_perm {α : Type} (le : α → α → Bool) (l : List α) :
    (sortLe le l).Perm l := by
  induction l with
  | nil => simp [sortLe]
  | cons a l ih => exact (insertLe_perm le a (sortLe le l)).trans (ih.cons a)

theorem mem_sortLe {α : Type} (le : α → α → Bool) (x : α) (l : List α) :
    x ∈ sortLe le l ↔ x ∈ l :=
  (sortLe_perm le l).mem_iff

theorem pairwise_insertLe {α : Type} {le : α → α → Bool}
    (htot : ∀ a b, le a b = true ∨ le b a = true)
    (htr : ∀ a b c, le a b = true → le b c = true → le a c = true)
    {l : List α} (a : α) (hp : l.Pairwise (fun x y => le x y = true)) :
    (insertLe le a l).Pairwise (fun x y => le x y = true) := by
  induction l with
  | nil => simp [insertLe]
  | cons b l ih =>
    rw [List.pairwise_cons] at hp
    by_cases h : le a b = true
    · rw [insertLe, if_pos h]
      refine List.Pairwise.cons ?_ (List.Pairwise.cons hp.1 hp.2)
      intro x hx
      rcases List.mem_cons.mp hx with rfl | hx
      · exact h
      · exact htr a b x h (hp.1 x hx)
    · rw [insertLe, if_neg h]
      refine List.Pairwise.cons ?_ (ih hp.2)
      intro x hx
      rcases (mem_insertLe le a x l).mp hx with heq | hx
      · subst heq
        rcases htot x b with h2 | h2
        · exact absurd h2 h
        · exact h2
      · exact hp.1 x hx

theorem pairwise_sortLe {α : Type} {le : α → α → Bool}
    (htot : ∀ a b, le a b = true ∨ le b a = true)
    (htr : ∀ a b c, le a b = true → le b c = true → le a c = true)
    (l : List α) : (sortLe le l).Pairwise (fun x y => le x y = true) := by
  induction l with
  | nil => simp [sortLe]
  | cons a l ih => exact pairwise_insertLe htot htr a ih

theorem nodup_sortLe {α : Type} (le : α → α → Bool) {l : List α} (h : l.Nodup) :
    (sortLe le l).Nodup :=
  (sortLe_perm le l).nodup_iff.mpr h

theorem pairwise_sortStrings_le (l : List String) :
    (sortStrings l).Pairwise (fun x y => strLeB x y = true) :=
  pairwise_sortLe strLeB_total strLeB_trans l

theorem mem_sortStrings (x : String) (l : List String) :
    x ∈ sortStrings l ↔ x ∈ l :=
  mem_sortLe strLeB x l

theorem pairwise_sortStrings_lt {l : List String} (h : l.Nodup) :
    (sortStrings l).Pairwise (fun x y => strLtB x y = true) := by
  have hle := pairwise_sortStrings_le l
  have hnd : (sortStrings l).Nodup := nodup_sortLe strLeB h
  exact (hle.and hnd).imp (fun hx => strLtB_of_le_ne hx.1 hx.2)

/-! Simple facts about the aggregate predicates. -/

theorem get_of_lookupA_none {r : DAGResult} {job : String} (h : lookupA r job = none) :
    r.get job = { name := job, status := .unknown, error := none } := by
  unfold DAGResult.get
  rw [h]

theorem isSuccess_true_iff (r : DAGResult) (job : String) :
    r.isSuccess job = true ↔ (r.get job).status = JobStatus.success := by
  unfold DAGResult.isSuccess
  exact decide_eq_true_iff

theorem isSuccess_false_iff (r : DAGResult) (job : String) :
    r.isSuccess job = false ↔ (r.get job).status ≠ JobStatus.success := by
  unfold DAGResult.isSuccess
  rcases h : decide ((r.get job).status = JobStatus.success) with _ | _
  · simpa using of_decide_eq_false h
  · simpa using of_decide_eq_true h

theorem isReady_iff (r : DAGResult) :
    r.IsReady = true ↔ ∀ k ∈ keysA r,
      (r.get k).status ≠ JobStatus.skipped ∧ (r.get k).status ≠ JobStatus.inProgress ∧
        (r.get k).status ≠ JobStatus.failed := by
  unfold DAGResult.IsReady DAGResult.orderedJobs
  rw [List.all_eq_true]
  constructor
  · intro h k hk
    have h2 := h k ((mem_sortStrings k (keysA r)).mpr hk)
    simpa [and_assoc] using h2
  · intro h k hk
    have h2 := h k ((mem_sortStrings k (keysA r)).mp hk)
    simpa [and_assoc] using h2

theorem isSuccessful_iff (r : DAGResult) :
    r.IsSuccessful = true ↔ ∀ e ∈ r, e.2.status = JobStatus.success := by
  unfold DAGResult.IsSuccessful
  rw [List.all_eq_true]
  simp

/-- C1 counterexample: a result whose only entry is Unknown has
`IsReady() = true` although not every non-sentinel entry is Success, so
`IsReady` is not equivalent to the condition the claim states. -/
theorem C1_counterexample :
    DAGResult.IsReady rC1cex = true ∧ allJobsSuccessExclSentinel rC1cex = false := by
  constructor <;> decide

/-- C1 (amended): `IsReady()` returns true exactly when no entry of the
result (the synthetic timeout entry included) has status Skipped,
InProgress or Failed — Unknown entries do not prevent readiness — and
`IsSuccessful()` returns true exactly when every entry (the synthetic
timeout entry included) has status Success. -/
theorem C1_amended (r : DAGResult) :
    (r.IsReady = true ↔ ∀ k ∈ keysA r,
      (r.get k).status ≠ JobStatus.skipped ∧ (r.get k).status ≠ JobStatus.inProgress ∧
        (r.get k).status ≠ JobStatus.failed)
    ∧ (r.IsSuccessful = true ↔ ∀ e ∈ r, e.2.status = JobStatus.success) :=
  ⟨isReady_iff r, isSuccessful_iff r⟩

/-- Witness for C1 (amended) at a concrete result. -/
theorem C1_witness :
    (DAGResult.IsReady rC1cex = true ↔ ∀ k ∈ keysA rC1cex,
      (DAGResult.get rC1cex k).status ≠ JobStatus.skipped ∧
        (DAGResult.get rC1cex k).status ≠ JobStatus.inProgress ∧
        (DAGResult.get rC1cex k).status ≠ JobStatus.failed)
    ∧ (DAGResult.IsSuccessful rC1cex = true ↔
        ∀ e ∈ rC1cex, e.2.status = JobStatus.success) :=
  C1_amended rC1cex

/-- C6: `Blockers(dag, job)` returns exactly the direct dependencies of
`job` that are not Success, sorted lexicographically, and is empty when
`job` has no dependencies or when all its dependencies are Success. -/
theorem C6_blockers (r : DAGResult) (dag : DAG) (job : String) :
    (∀ x, x ∈ r.Blockers dag job ↔ x ∈ adj dag job ∧ r.isSuccess x = false)
    ∧ (r.Blockers dag job).Pairwise (fun a b => strLeB a b = true)
    ∧ (adj dag job = [] → r.Blockers dag job = [])
    ∧ ((∀ x ∈ adj dag job, r.isSuccess x = true) → r.Blockers dag job = []) := by
  refine ⟨?_, ?_, ?_, ?_⟩
  · intro x
    unfold DAGResult.Blockers
    by_cases h : (adj dag job).isEmpty
    · rw [if_pos h]
      rw [List.isEmpty_iff] at h
      simp [h]
    · rw [if_neg h]
      rw [mem_sortStrings, List.mem_filter]
      simp
  · unfold DAGResult.Blockers
    by_cases h : (adj dag job).isEmpty
    · rw [if_pos h]
      exact List.Pairwise.nil
    · rw [if_neg h]
      exact pairwise_sortStrings_le _
  · intro h
    unfold DAGResult.Blockers
    simp [h, List.isEmpty_iff]
  · intro h
    unfold DAGResult.Blockers
    by_cases he : (adj dag job).isEmpty
    · rw [if_pos he]
    · rw [if_neg he]
      have hf : (adj dag job).filter (fun x => !(r.isSuccess x)) = [] := by
        rw [List.filter_eq_nil_iff]
        intro a ha
        simp [h a ha]
      rw [hf]
      rfl

/-- Witness for C6 at a concrete result and DAG. -/
theorem C6_witness :
    (∀ x, x ∈ DAGResult.Blockers rC1cex [("j", ["a"])] "j" ↔
      x ∈ adj [("j", ["a"])] "j" ∧ DAGResult.isSuccess rC1cex x = false)
    ∧ (DAGResult.Blockers rC1cex [("j", ["a"])] "j").Pairwise
        (fun a b => strLeB a b = true)
    ∧ (adj [("j", ["a"])] "j" = [] → DAGResult.Blockers rC1cex [("j", ["a"])] "j" = [])
    ∧ ((∀ x ∈ adj [("j", ["a"])] "j", DAGResult.isSuccess rC1cex x = true) →
        DAGResult.Blockers rC1cex [("j", ["a"])] "j" = []) :=
  C6_blockers rC1cex [("j", ["a"])] "j"

/-- C7: `IsTimeouted()` holds exactly when the sentinel key is present;
after `TimeoutError(deadline)` the sentinel entry exists with status
Failed and a non-nil error, so `IsTimeouted()` and `IsFailed()` hold. -/
theorem C7_timeout (r : DAGResult) (deadline : String) :
    (r.IsTimeouted = true ↔ timeoutErrorKey ∈ keysA r)
    ∧ lookupA (r.TimeoutError deadline) timeoutErrorKey =
        some { name := "", status := JobStatus.failed,
               error := some ("timeout after " ++ deadline) }
    ∧ (r.TimeoutError deadline).IsTimeouted = true
    ∧ (r.TimeoutError deadline).IsFailed = true := by
  refine ⟨lookupA_isSome_iff r timeoutErrorKey, ?_, ?_, ?_⟩
  · simp [DAGResult.TimeoutError, lookupA]
  · unfold DAGResult.IsTimeouted
    simp [DAGResult.TimeoutError, lookupA]
  · unfold DAGResult.IsFailed
    rw [List.any_eq_true]
    exact ⟨_, List.mem_cons_self _ _, by simp⟩

/-- Witness for C7 at a concrete result and deadline. -/
theorem C7_witness :
    (DAGResult.IsTimeouted rC1cex = true ↔ timeoutErrorKey ∈ keysA rC1cex)
    ∧ lookupA (DAGResult.TimeoutError rC1cex "60") timeoutErrorKey =
        some { name := "", status := JobStatus.failed,
               error := some ("timeout after " ++ "60") }
    ∧ (DAGResult.TimeoutError rC1cex "60").IsTimeouted = true
    ∧ (DAGResult.TimeoutError rC1cex "60").IsFailed = true :=
  C7_timeout rC1cex "60"

/-- C9: every derived query is total on a name with no entry: `get`
yields an Unknown result with nil error, `isSuccess` is false, and a
dangling dependency is reported by `Blockers` as a blocker. -/
theorem C9_missing_key (r : DAGResult) (job : String)
    (h : lookupA r job = none) :
    r.get job = { name := job, status := JobStatus.unknown, error := none }
    ∧ r.isSuccess job = false
    ∧ ∀ dag j, job ∈ adj dag j → job ∈ r.Blockers dag j := by
  have hget := get_of_lookupA_none h
  have hsucc : r.isSuccess job = false := by
    rw [isSuccess_false_iff, hget]
    simp
  refine ⟨hget, hsucc, ?_⟩
  intro dag j hj
  unfold DAGResult.Blockers
  have hne : ¬(adj dag j).isEmpty = true := by
    intro he
    rw [List.isEmpty_iff] at he
    rw [he] at hj
    simp at hj
  rw [if_neg hne, mem_sortStrings, List.mem_filter]
  exact ⟨hj, by simp [hsucc]⟩

/-- Witness for C9: an empty result and the key "x". -/
theorem C9_witness :
    lookupA ([] : DAGResult) "x" = none
    ∧ (DAGResult.get [] "x" = { name := "x", status := JobStatus.unknown, error := none }
      ∧ DAGResult.isSuccess [] "x" = false
      ∧ ∀ dag j, "x" ∈ adj dag j → "x" ∈ DAGResult.Blockers [] dag j) :=
  ⟨rfl, C9_missing_key [] "x" rfl⟩

/-! FirstInProgress: first match of a sorted scan is the minimum. -/

theorem find?_min_of_pairwise {l : List String} {p : String → Bool} {k : String}
    (hs : l.Pairwise (fun a b => strLeB a b = true))
    (h : l.find? p = some k) : ∀ x ∈ l, p x = true → strLeB k x = true := by
  induction l with
  | nil => simp at h
  | cons a l ih =>
    rw [List.pairwise_cons] at hs
    by_cases hpa : p a = true
    · rw [List.find?_cons_of_pos _ hpa] at h
      injection h with h
      subst h
      intro x hx _
      rcases List.mem_cons.mp hx with rfl | hx
      · exact strLeB_refl _
      · exact hs.1 x hx
    · rw [List.find?_cons_of_neg _ (by simpa using hpa)] at h
      intro x hx hpx
      rcases List.mem_cons.mp hx with rfl | hx
      · exact absurd hpx hpa
      · exact ih hs.2 h x hx hpx

theorem get_eq_of_mem_nodup {r : DAGResult} (hnd : (keysA r).Nodup)
    {e : String × JobResult} (he : e ∈ r) : r.get e.1 = e.2 := by
  obtain ⟨k, v⟩ := e
  unfold DAGResult.get
  rw [lookupA_of_mem_nodup hnd he]

theorem mem_orderedJobs_of_mem {r : DAGResult} {e : String × JobResult} (he : e ∈ r) :
    e.1 ∈ r.orderedJobs := by
  unfold DAGResult.orderedJobs
  rw [mem_sortStrings]
  exact List.mem_map.mpr ⟨e, he, rfl⟩

/-- C8: `FirstInProgress()` returns the InProgress entry with the
lexicographically smallest key among all entries, and nil when no entry
is InProgress. -/
theorem C8_firstInProgress (r : DAGResult) (hnd : (keysA r).Nodup) :
    (r.FirstInProgress = none ↔ ∀ e ∈ r, e.2.status ≠ JobStatus.inProgress)
    ∧ (∀ jr, r.FirstInProgress = some jr →
        jr.status = JobStatus.inProgress
        ∧ ∃ k, (k, jr) ∈ r
            ∧ ∀ e ∈ r, e.2.status = JobStatus.inProgress → strLeB k e.1 = true) := by
  constructor
  · unfold DAGResult.FirstInProgress
    rcases hf : (r.orderedJobs.find? (fun k => decide ((r.get k).status = JobStatus.inProgress)))
      with _ | k
    · simp only [true_iff]
      rw [List.find?_eq_none] at hf
      intro e he hst
      have h2 := hf e.1 (mem_orderedJobs_of_mem he)
      rw [get_eq_of_mem_nodup hnd he] at h2
      simp [hst] at h2
    · constructor
      · intro h
        simp at h
      · intro hall
        exfalso
        have hff0 := List.find?_some hf
        have hmem := List.mem_of_find?_eq_some hf
        rw [DAGResult.orderedJobs, mem_sortStrings, mem_keysA] at hmem
        obtain ⟨v, hv⟩ := hmem
        have hg : r.get k = v := get_eq_of_mem_nodup hnd (e := (k, v)) hv
        have hst : (r.get k).status = JobStatus.inProgress := of_decide_eq_true hff0
        rw [hg] at hst
        exact hall _ hv hst
  · intro jr hjr
    unfold DAGResult.FirstInProgress at hjr
    rcases hf : (r.orderedJobs.find? (fun k => decide ((r.get k).status = JobStatus.inProgress)))
      with _ | k
    · rw [hf] at hjr
      simp at hjr
    · rw [hf] at hjr
      injection hjr with hjr
      have hff0 := List.find?_some hf
      have hst : (r.get k).status = JobStatus.inProgress := of_decide_eq_true hff0
      have hmem := List.mem_of_find?_eq_some hf
      rw [DAGResult.orderedJobs, mem_sortStrings, mem_keysA] at hmem
      obtain ⟨v, hv⟩ := hmem
      have hg : r.get k = v := get_eq_of_mem_nodup hnd (e := (k, v)) hv
      subst hjr
      refine ⟨hst, k, ?_, ?_⟩
      · rw [hg]
        exact hv
      · intro e he hest
        have hsorted : r.orderedJobs.Pairwise (fun a b => strLeB a b = true) :=
          pairwise_sortStrings_le _
        refine find?_min_of_pairwise hsorted hf e.1 (mem_orderedJobs_of_mem he) ?_
        rw [get_eq_of_mem_nodup hnd he]
        exact decide_eq_true hest

/-- Witness for C8 at a concrete result with two InProgress entries. -/
theorem C8_witness :
    (keysA rC8w).Nodup
    ∧ ((DAGResult.FirstInProgress rC8w = none ↔
          ∀ e ∈ rC8w, e.2.status ≠ JobStatus.inProgress)
      ∧ (∀ jr, DAGResult.FirstInProgress rC8w = some jr →
          jr.status = JobStatus.inProgress
          ∧ ∃ k, (k, jr) ∈ rC8w
              ∧ ∀ e ∈ rC8w, e.2.status = JobStatus.inProgress → strLeB k e.1 = true)) :=
  ⟨by decide, C8_firstInProgress rC8w (by decide)⟩

/-! reverseDAG lemmas. -/

theorem lookupA_mapVal {α β : Type} (g : String → α → β) (l : List (String × α)) (k : String) :
    lookupA (l.map (fun e => (e.1, g e.1 e.2))) k = (lookupA l k).map (g k) := by
  induction l with
  | nil => simp [lookupA]
  | cons e l ih =>
    by_cases h : e.1 = k
    · subst h
      simp [lookupA]
    · simp [lookupA, h, ih]

theorem lookupA_append {α : Type} (l1 l2 : List (String × α)) (k : String) :
    lookupA (l1 ++ l2) k =
      match lookupA l1 k with
      | some v => some v
      | none => lookupA l2 k := by
  induction l1 with
  | nil => simp [lookupA]
  | cons e l ih =>
    by_cases h : e.1 = k
    · subst h
      simp [lookupA]
    · simp [lookupA, h, ih]

theorem appendEdge_map_eq (rev : DAG) (dep n : String) :
    rev.map (fun e => if e.1 = dep then (e.1, e.2 ++ [n]) else e)
      = rev.map (fun e => (e.1, if e.1 = dep then e.2 ++ [n] else e.2)) := by
  apply List.map_congr_left
  intro e _
  by_cases h : e.1 = dep <;> simp [h]

theorem keysA_map_fst {α β : Type} (l : List (String × α)) (g : String → α → β) :
    keysA (l.map (fun e => (e.1, g e.1 e.2))) = keysA l := by
  unfold keysA
  rw [List.map_map]
  simp

theorem adj_appendEdge (rev : DAG) (dep n a : String) :
    adj (appendEdge rev dep n) a = if a = dep then adj rev a ++ [n] else adj rev a := by
  unfold appendEdge
  by_cases hp : (lookupA rev dep).isSome = true
  · rw [if_pos hp, appendEdge_map_eq]
    unfold adj
    rw [lookupA_mapVal (fun k v => if k = dep then v ++ [n] else v)]
    rcases hv : lookupA rev a with _ | v
    · by_cases ha : a = dep
      · subst ha
        rw [hv] at hp
        simp at hp
      · simp [ha]
    · by_cases ha : a = dep <;> simp [ha]
  · rw [if_neg hp]
    unfold adj
    rw [lookupA_append]
    rcases hv : lookupA rev a with _ | v
    · by_cases ha : a = dep
      · subst ha
        simp [lookupA]
      · have : ¬dep = a := fun h => ha h.symm
        simp [lookupA, this, ha]
    · by_cases ha : a = dep
      · subst ha
        rw [hv] at hp
        simp at hp
      · simp [ha]

theorem adj_foldl_appendEdge (n : String) (deps : List String) :
    ∀ (rv : DAG) (a b : String),
      b ∈ adj (deps.foldl (fun rv2 dep => appendEdge rv2 dep n) rv) a
        ↔ b ∈ adj rv a ∨ (b = n ∧ a ∈ deps) := by
  induction deps with
  | nil =>
    intro rv a b
    simp
  | cons dep deps ih =>
    intro rv a b
    rw [List.foldl_cons, ih, adj_appendEdge]
    by_cases ha : a = dep
    · rw [if_pos ha]
      subst ha
      simp [List.mem_append]
      tauto
    · rw [if_neg ha]
      simp only [List.mem_cons]
      constructor
      · rintro (h | ⟨rfl, h⟩)
        · exact Or.inl h
        · exact Or.inr ⟨rfl, Or.inr h⟩
      · rintro (h | ⟨rfl, h | h⟩)
        · exact Or.inl h
        · exact absurd h ha
        · exact Or.inr ⟨rfl, h⟩

theorem adj_reverseDAG_mem (dag : DAG) (a b : String) :
    b ∈ adj (reverseDAG dag) a ↔ ∃ e ∈ dag, e.1 = b ∧ a ∈ e.2 := by
  unfold reverseDAG
  have hgen : ∀ (entries : List (String × List String)) (rv : DAG),
      b ∈ adj (entries.foldl
          (fun rv e => e.2.foldl (fun rv2 dep => appendEdge rv2 dep e.1) rv) rv) a
        ↔ b ∈ adj rv a ∨ ∃ e ∈ entries, e.1 = b ∧ a ∈ e.2 := by
    intro entries
    induction entries with
    | nil =>
      intro rv
      simp
    | cons e entries ih =>
      intro rv
      rw [List.foldl_cons, ih, adj_foldl_appendEdge]
      simp only [List.exists_mem_cons_iff]
      constructor
      · rintro ((h | ⟨rfl, h⟩) | h)
        · exact Or.inl h
        · exact Or.inr (Or.inl ⟨rfl, h⟩)
        · exact Or.inr (Or.inr h)
      · rintro (h | ⟨he1, he2⟩ | h)
        · exact Or.inl (Or.inl h)
        · exact Or.inl (Or.inr ⟨he1.symm, he2⟩)
        · exact Or.inr h
  rw [hgen]
  have hnil : ∀ (l : DAG) (k : String),
      lookupA (l.map (fun e => (e.1, ([] : List String)))) k = none ∨
      lookupA (l.map (fun e => (e.1, ([] : List String)))) k = some [] := by
    intro l k
    induction l with
    | nil =>
      left
      rfl
    | cons e l ih =>
      by_cases h : e.1 = k
      · right
        simp [lookupA, h]
      · simpa [lookupA, h] using ih
  have hini : adj (dag.map (fun e => (e.1, ([] : List String)))) a = [] := by
    unfold adj
    rcases hnil dag a with h | h <;> rw [h] <;> rfl
  rw [hini]
  simp

theorem keysA_appendEdge (rev : DAG) (dep n : String) :
    keysA (appendEdge rev dep n)
      = if dep ∈ keysA rev then keysA rev else keysA rev ++ [dep] := by
  unfold appendEdge
  by_cases hp : (lookupA rev dep).isSome = true
  · rw [if_pos hp, if_pos ((lookupA_isSome_iff rev dep).mp hp), appendEdge_map_eq]
    exact keysA_map_fst rev (fun k v => if k = dep then v ++ [n] else v)
  · rw [if_neg hp, if_neg (fun h => hp ((lookupA_isSome_iff rev dep).mpr h))]
    unfold keysA
    simp

theorem keysA_foldl_appendEdge (n : String) (deps : List String) :
    ∀ (rv : DAG), (∀ x ∈ deps, x ∈ keysA rv) →
      keysA (deps.foldl (fun rv2 dep => appendEdge rv2 dep n) rv) = keysA rv := by
  induction deps with
  | nil =>
    intro rv _
    rfl
  | cons dep deps ih =>
    intro rv h
    rw [List.foldl_cons]
    have hk : keysA (appendEdge rv dep n) = keysA rv := by
      rw [keysA_appendEdge, if_pos (h dep (List.mem_cons_self _ _))]
    rw [ih _ (fun x hx => by rw [hk]; exact h x (List.mem_cons_of_mem _ hx)), hk]

theorem keysA_reverseDAG (dag : DAG)
    (hclosed : ∀ e ∈ dag, ∀ x ∈ e.2, x ∈ keysA dag) :
    keysA (reverseDAG dag) = keysA dag := by
  unfold reverseDAG
  have hini : keysA (dag.map (fun e => (e.1, ([] : List String)))) = keysA dag := by
    unfold keysA
    rw [List.map_map]
    simp
  have hgen : ∀ (entries : List (String × List String)) (rv : DAG),
      (∀ e ∈ entries, ∀ x ∈ e.2, x ∈ keysA rv) →
      keysA (entries.foldl
          (fun rv e => e.2.foldl (fun rv2 dep => appendEdge rv2 dep e.1) rv) rv) = keysA rv := by
    intro entries
    induction entries with
    | nil =>
      intro rv _
      rfl
    | cons e entries ih =>
      intro rv h
      rw [List.foldl_cons]
      have hk : keysA (e.2.foldl (fun rv2 dep => appendEdge rv2 dep e.1) rv) = keysA rv :=
        keysA_foldl_appendEdge e.1 e.2 rv (h e (List.mem_cons_self _ _))
      rw [ih _ (fun e2 he2 x hx => by
        rw [hk]
        exact h e2 (List.mem_cons_of_mem _ he2) x hx), hk]
  rw [hgen dag _ (fun e he x hx => by rw [hini]; exact hclosed e he x hx), hini]

theorem mem_adj_iff_nodup {d : DAG} (hnd : (keysA d).Nodup) (a b : String) :
    a ∈ adj d b ↔ ∃ e ∈ d, e.1 = b ∧ a ∈ e.2 := by
  constructor
  · intro h
    unfold adj at h
    rcases hv : lookupA d b with _ | v
    · rw [hv] at h
      simp at h
    · rw [hv] at h
      exact ⟨(b, v), lookupA_mem hv, rfl, h⟩
  · rintro ⟨⟨k, v⟩, he, rfl, hx⟩
    show a ∈ adj d k
    unfold adj
    rw [lookupA_of_mem_nodup hnd he]
    exact hx

theorem reverseDAG_closed (dag : DAG) (hnd : (keysA dag).Nodup)
    (hclosed : ∀ e ∈ dag, ∀ x ∈ e.2, x ∈ keysA dag) :
    ∀ e ∈ reverseDAG dag, ∀ x ∈ e.2, x ∈ keysA (reverseDAG dag) := by
  intro e he x hx
  have hkeys := keysA_reverseDAG dag hclosed
  have hnd2 : (keysA (reverseDAG dag)).Nodup := by
    rw [hkeys]
    exact hnd
  have hadj : x ∈ adj (reverseDAG dag) e.1 := by
    obtain ⟨k, v⟩ := e
    show x ∈ adj (reverseDAG dag) k
    unfold adj
    rw [lookupA_of_mem_nodup hnd2 he]
    exact hx
  obtain ⟨e2, he2, heq, _⟩ := (adj_reverseDAG_mem dag e.1 x).mp hadj
  rw [hkeys]
  exact heq ▸ List.mem_map.mpr ⟨e2, he2, rfl⟩

/-- C10 (amended): for a graph `d` with unique keys in which every
listed dependency name also occurs as a key of `d`, `reverseDAG(d)` has
exactly the same key set as `d` and contains the edge dep -> job exactly
when `d` lists dep among job's dependencies, and reversing twice
restores the original key set and edge set. -/
theorem C10_amended (d : DAG) (hnd : (keysA d).Nodup)
    (hclosed : ∀ e ∈ d, ∀ x ∈ e.2, x ∈ keysA d) :
    keysA (reverseDAG d) = keysA d
    ∧ (∀ a b, b ∈ adj (reverseDAG d) a ↔ a ∈ adj d b)
    ∧ keysA (reverseDAG (reverseDAG d)) = keysA d
    ∧ (∀ a b, b ∈ adj (reverseDAG (reverseDAG d)) a ↔ b ∈ adj d a) := by
  have hkeys := keysA_reverseDAG d hclosed
  have hedge : ∀ a b, b ∈ adj (reverseDAG d) a ↔ a ∈ adj d b := by
    intro a b
    rw [adj_reverseDAG_mem, mem_adj_iff_nodup hnd]
  have hnd2 : (keysA (reverseDAG d)).Nodup := by
    rw [hkeys]
    exact hnd
  have hclosed2 := reverseDAG_closed d hnd hclosed
  have hkeys2 : keysA (reverseDAG (reverseDAG d)) = keysA d := by
    rw [keysA_reverseDAG _ hclosed2, hkeys]
  refine ⟨hkeys, hedge, hkeys2, ?_⟩
  intro a b
  constructor
  · intro h
    have h2 := (adj_reverseDAG_mem (reverseDAG d) a b).mp h
    have h3 : a ∈ adj (reverseDAG d) b := (mem_adj_iff_nodup hnd2 a b).mpr h2
    exact (hedge b a).mp h3
  · intro h
    have h3 : a ∈ adj (reverseDAG d) b := (hedge b a).mpr h
    exact (adj_reverseDAG_mem (reverseDAG d) a b).mpr ((mem_adj_iff_nodup hnd2 a b).mp h3)

/-- C10 counterexample: reversing a graph with the dangling dependency
"b" adds "b" as a new key, so reverseDAG does not preserve the key set
for every DAG value. -/
theorem C10_counterexample :
    "b" ∈ keysA (reverseDAG dC10cex) ∧ "b" ∉ keysA dC10cex := by
  constructor <;> decide

/-- Witness for C10 (amended) at a concrete two-node DAG. -/
theorem C10_witness :
    ((keysA dC10w).Nodup ∧ ∀ e ∈ dC10w, ∀ x ∈ e.2, x ∈ keysA dC10w)
    ∧ (keysA (reverseDAG dC10w) = keysA dC10w
      ∧ (∀ a b, b ∈ adj (reverseDAG dC10w) a ↔ a ∈ adj dC10w b)
      ∧ keysA (reverseDAG (reverseDAG dC10w)) = keysA dC10w
      ∧ (∀ a b, b ∈ adj (reverseDAG (reverseDAG dC10w)) a ↔ b ∈ adj dC10w a)) :=
  ⟨⟨by decide, by decide⟩, C10_amended dC10w (by decide) (by decide)⟩

/-! Avoiding-path lemmas used to characterise the seen-set dfs. -/

theorem RA_not_mem {d : DAG} {A : List String} {n m : String} (h : RA d A n m) : n ∉ A := by
  cases h with
  | refl _ h => exact h
  | step h _ _ => exact h

theorem RA_antitone {d : DAG} {A A2 : List String} (hsub : ∀ x ∈ A, x ∈ A2) :
    ∀ {n m : String}, RA d A2 n m → RA d A n m := by
  intro n m h
  induction h with
  | refl x hx => exact RA.refl x (fun hmem => hx (hsub x hmem))
  | step hx hs _ ih => exact RA.step (fun hmem => hx (hsub _ hmem)) hs ih

theorem RA_trans {d : DAG} {A : List String} {a b c : String}
    (h1 : RA d A a b) (h2 : RA d A b c) : RA d A a c := by
  revert h2
  induction h1 with
  | refl =>
    intro h2
    exact h2
  | step hx hs _ ih =>
    intro h2
    exact RA.step hx hs (ih h2)

theorem RA_absorb {d : DAG} {A A2 : List String} {s : String}
    (hA2 : ∀ x, x ∈ A2 ↔ x ∈ A ∨ RA d A s x) :
    ∀ {t m : String}, RA d A t m → m ∈ A2 ∨ RA d A2 t m := by
  intro t m h
  induction h with
  | refl x hx =>
    by_cases hx2 : x ∈ A2
    · exact Or.inl hx2
    · exact Or.inr (RA.refl x hx2)
  | @step n u m hx hu hr ih =>
    by_cases hn2 : n ∈ A2
    · rcases (hA2 n).mp hn2 with h | h
      · exact absurd h hx
      · exact Or.inl ((hA2 m).mpr (Or.inr (RA_trans h (RA.step hx hu hr))))
    · rcases ih with h | h
      · exact Or.inl h
      · exact Or.inr (RA.step hn2 hu h)

theorem RA_cons {d : DAG} {A : List String} (n : String) :
    ∀ {s m : String}, RA d A s m →
      m = n ∨ RA d (n :: A) s m ∨ ∃ u ∈ adj d n, RA d (n :: A) u m := by
  intro s m h
  induction h with
  | refl x hx =>
    by_cases hxn : x = n
    · exact Or.inl hxn
    · exact Or.inr (Or.inl (RA.refl x (by simp [hxn, hx])))
  | @step t u m hx hu _ ih =>
    rcases ih with h | h | h
    · exact Or.inl h
    · by_cases htn : t = n
      · subst htn
        exact Or.inr (Or.inr ⟨u, hu, h⟩)
      · exact Or.inr (Or.inl (RA.step (by simp [htn, hx]) hu h))
    · exact Or.inr (Or.inr h)

theorem Reach_iff_RA_nil (d : DAG) (a b : String) : Reach d a b ↔ RA d [] a b := by
  constructor
  · intro h
    induction h with
    | refl n => exact RA.refl n (by simp)
    | step hs _ ih => exact RA.step (by simp) hs ih
  · intro h
    induction h with
    | refl x _ => exact Reach.refl x
    | step _ hs _ ih => exact Reach.step hs ih

/-! Fuel bookkeeping for the dfs. -/

theorem filter_length_le {α : Type} {p q : α → Bool}
    (himp : ∀ x, q x = true → p x = true) (l : List α) :
    (l.filter q).length ≤ (l.filter p).length := by
  induction l with
  | nil => simp
  | cons b l ih =>
    rw [List.filter_cons, List.filter_cons]
    by_cases hq : q b = true
    · rw [if_pos hq, if_pos (himp b hq)]
      simpa using ih
    · rw [if_neg hq]
      by_cases hp : p b = true
      · rw [if_pos hp]
        simp only [List.length_cons]
        omega
      · rw [if_neg hp]
        exact ih

theorem filter_length_lt {α : Type} {p q : α → Bool} {l : List α}
    (himp : ∀ x, q x = true → p x = true) {a : α} (ha : a ∈ l)
    (hpa : p a = true) (hqa : q a = false) :
    (l.filter q).length < (l.filter p).length := by
  induction l with
  | nil => simp at ha
  | cons b l ih =>
    rw [List.filter_cons, List.filter_cons]
    rcases List.mem_cons.mp ha with rfl | ha
    · rw [if_neg (by simp [hqa]), if_pos hpa]
      simp only [List.length_cons]
      exact Nat.lt_succ_of_le (filter_length_le himp l)
    · by_cases hq : q b = true
      · rw [if_pos hq, if_pos (himp b hq)]
        simpa using ih ha
      · rw [if_neg hq]
        by_cases hp : p b = true
        · rw [if_pos hp]
          simp only [List.length_cons]
          exact Nat.lt_succ_of_lt (ih ha)
        · rw [if_neg hp]
          exact ih ha

theorem unseenCount_cons_lt {d : DAG} {A : List String} {n : String}
    (hkey : n ∈ keysA d) (hn : n ∉ A) :
    unseenCount d (n :: A) < unseenCount d A := by
  apply filter_length_lt (a := n)
  · intro x hx
    simp only [Bool.not_eq_true', decide_eq_false_iff_not] at hx ⊢
    intro hmem
    exact hx (List.mem_cons_of_mem _ hmem)
  · exact List.mem_dedup.mpr hkey
  · simp [hn]
  · simp

theorem unseenCount_le_of_subset {d : DAG} {A A2 : List String}
    (hsub : ∀ x ∈ A, x ∈ A2) :
    unseenCount d A2 ≤ unseenCount d A := by
  apply filter_length_le
  intro x hx
  simp only [Bool.not_eq_true', decide_eq_false_iff_not] at hx ⊢
  intro hmem
  exact hx (hsub x hmem)

theorem adj_ne_nil_mem_keys {d : DAG} {n : String} (h : adj d n ≠ []) : n ∈ keysA d := by
  unfold adj at h
  rcases hv : lookupA d n with _ | v
  · rw [hv] at h
    simp at h
  · exact (lookupA_isSome_iff d n).mp (by rw [hv]; rfl)

/-! Monotonicity and duplicate-freedom of the dfs. -/

theorem dfs_mono (d : DAG) : ∀ fuel : Nat,
    (∀ out n x, x ∈ out → x ∈ dfsNode d fuel out n)
    ∧ (∀ l out x, x ∈ out → x ∈ dfsSeq d fuel out l) := by
  intro fuel
  induction fuel with
  | zero =>
    constructor
    · intro out n x hx
      simpa [dfsNode] using hx
    · intro l
      induction l with
      | nil =>
        intro out x hx
        simpa [dfsSeq] using hx
      | cons s rest ih =>
        intro out x hx
        rw [dfsSeq]
        exact ih _ x (by simpa [dfsNode] using hx)
  | succ fuel ihf =>
    have hnode : ∀ out n x, x ∈ out → x ∈ dfsNode d (fuel + 1) out n := by
      intro out n x hx
      rw [dfsNode]
      by_cases h : n ∈ out
      · simpa [h] using hx
      · simp only [if_neg h]
        exact ihf.2 _ _ x (List.mem_cons_of_mem _ hx)
    refine ⟨hnode, ?_⟩
    intro l
    induction l with
    | nil =>
      intro out x hx
      simpa [dfsSeq] using hx
    | cons s rest ih =>
      intro out x hx
      rw [dfsSeq]
      exact ih _ x (hnode out s x hx)

theorem dfs_nodup (d : DAG) : ∀ fuel : Nat,
    (∀ out n, out.Nodup → (dfsNode d fuel out n).Nodup)
    ∧ (∀ l out, out.Nodup → (dfsSeq d fuel out l).Nodup) := by
  intro fuel
  induction fuel with
  | zero =>
    constructor
    · intro out n h
      simpa [dfsNode] using h
    · intro l
      induction l with
      | nil =>
        intro out h
        simpa [dfsSeq] using h
      | cons s rest ih =>
        intro out h
        rw [dfsSeq]
        exact ih _ (by simpa [dfsNode] using h)
  | succ fuel ihf =>
    have hnode : ∀ out n, out.Nodup → (dfsNode d (fuel + 1) out n).Nodup := by
      intro out n h
      rw [dfsNode]
      by_cases hn : n ∈ out
      · simpa [hn] using h
      · simp only [if_neg hn]
        exact ihf.2 _ _ (List.nodup_cons.mpr ⟨hn, h⟩)
    refine ⟨hnode, ?_⟩
    intro l
    induction l with
    | nil =>
      intro out h
      simpa [dfsSeq] using h
    | cons s rest ih =>
      intro out h
      rw [dfsSeq]
      exact ih _ (hnode out s h)

theorem foldl_eq_dfsSeq (d : DAG) (fuel : Nat) (out l : List String) :
    l.foldl (dfsNode d fuel) out = dfsSeq d fuel out l := rfl

/-- exact characterisation of the seen-set dfs: with enough fuel, the
nodes collected are the input set plus everything reachable from the
start node by a path avoiding the input set. -/
theorem dfs_spec (d : DAG) : ∀ fuel : Nat,
    (∀ out n, unseenCount d out + 1 ≤ fuel →
      ∀ m, m ∈ dfsNode d fuel out n ↔ m ∈ out ∨ RA d out n m)
    ∧ (∀ l out, (l ≠ [] → unseenCount d out + 1 ≤ fuel) →
      ∀ m, m ∈ dfsSeq d fuel out l ↔ m ∈ out ∨ ∃ s ∈ l, RA d out s m) := by
  intro fuel
  induction fuel with
  | zero =>
    constructor
    · intro out n hF
      omega
    · intro l out hF m
      cases l with
      | nil => simp [dfsSeq]
      | cons s rest =>
        have := hF (by simp)
        omega
  | succ fuel ihf =>
    have hnode : ∀ out n, unseenCount d out + 1 ≤ fuel + 1 →
        ∀ m, m ∈ dfsNode d (fuel + 1) out n ↔ m ∈ out ∨ RA d out n m := by
      intro out n hF m
      rw [dfsNode]
      by_cases hn : n ∈ out
      · rw [if_pos hn]
        constructor
        · exact Or.inl
        · rintro (h | h)
          · exact h
          · exact absurd hn (RA_not_mem h)
      · rw [if_neg hn]
        by_cases hadj : adj d n = []
        · rw [hadj]
          rw [List.foldl_nil]
          constructor
          · intro h
            rcases List.mem_cons.mp h with rfl | h
            · exact Or.inr (RA.refl _ hn)
            · exact Or.inl h
          · rintro (h | h)
            · exact List.mem_cons_of_mem _ h
            · cases h with
              | refl _ _ => exact List.mem_cons_self _ _
              | step _ hs _ =>
                rw [hadj] at hs
                simp at hs
        · have hkey : n ∈ keysA d := adj_ne_nil_mem_keys hadj
          have hF2 : unseenCount d (n :: out) + 1 ≤ fuel := by
            have hlt := unseenCount_cons_lt hkey hn
            omega
          rw [foldl_eq_dfsSeq]
          rw [ihf.2 (adj d n) (n :: out) (fun _ => hF2) m]
          constructor
          · rintro (h | ⟨s, hs, hRA⟩)
            · rcases List.mem_cons.mp h with rfl | h
              · exact Or.inr (RA.refl _ hn)
              · exact Or.inl h
            · exact Or.inr (RA.step hn hs
                (RA_antitone (fun x hx => List.mem_cons_of_mem _ hx) hRA))
          · rintro (h | h)
            · exact Or.inl (List.mem_cons_of_mem _ h)
            · cases h with
              | refl _ _ => exact Or.inl (List.mem_cons_self _ _)
              | step _ hs hRA =>
                rcases RA_cons n hRA with rfl | h2 | ⟨u, hu, h2⟩
                · exact Or.inl (List.mem_cons_self _ _)
                · exact Or.inr ⟨_, hs, h2⟩
                · exact Or.inr ⟨u, hu, h2⟩
    refine ⟨hnode, ?_⟩
    intro l
    induction l with
    | nil =>
      intro out hF m
      simp [dfsSeq]
    | cons s rest ihl =>
      intro out hF m
      have hFs := hF (by simp)
      rw [dfsSeq, List.foldl_cons, foldl_eq_dfsSeq]
      have hA2 : ∀ x, x ∈ dfsNode d (fuel + 1) out s ↔ x ∈ out ∨ RA d out s x :=
        hnode out s hFs
      have hsub2 : ∀ x ∈ out, x ∈ dfsNode d (fuel + 1) out s :=
        fun x hx => (dfs_mono d (fuel + 1)).1 out s x hx
      have hFr : rest ≠ [] → unseenCount d (dfsNode d (fuel + 1) out s) + 1 ≤ fuel + 1 := by
        intro _
        have := unseenCount_le_of_subset (d := d) hsub2
        omega
      rw [ihl (dfsNode d (fuel + 1) out s) hFr m]
      constructor
      · rintro (h | ⟨t, ht, hRA⟩)
        · rcases (hA2 m).mp h with h | h
          · exact Or.inl h
          · exact Or.inr ⟨s, List.mem_cons_self _ _, h⟩
        · exact Or.inr ⟨t, List.mem_cons_of_mem _ ht, RA_antitone hsub2 hRA⟩
      · rintro (h | ⟨x, hx, hRA⟩)
        · exact Or.inl ((hA2 m).mpr (Or.inl h))
        · rcases List.mem_cons.mp hx with rfl | hx
          · exact Or.inl ((hA2 m).mpr (Or.inr hRA))
          · rcases RA_absorb hA2 hRA with h | h
            · exact Or.inl h
            · exact Or.inr ⟨x, hx, h⟩

/-! Subtree, Frontiers. -/

theorem mem_dfsNode_top (d : DAG) (root m : String) :
    m ∈ dfsNode d ((keysA d).length + 1) [] root ↔ Reach d root m := by
  have hF : unseenCount d [] + 1 ≤ (keysA d).length + 1 := by
    unfold unseenCount
    have h1 := List.length_filter_le
      (fun k => !(decide (k ∈ ([] : List String)))) (keysA d).dedup
    have h2 := List.Sublist.length_le (List.dedup_sublist (keysA d))
    omega
  rw [(dfs_spec d _).1 [] root hF m, Reach_iff_RA_nil]
  simp

theorem mem_Subtree (r : DAGResult) (d : DAG) (root m : String) :
    m ∈ r.Subtree d root ↔ Reach d root m := by
  unfold DAGResult.Subtree
  rw [mem_sortStrings]
  exact mem_dfsNode_top d root m

theorem Subtree_pairwise_lt (r : DAGResult) (d : DAG) (root : String) :
    (r.Subtree d root).Pairwise (fun a b => strLtB a b = true) := by
  unfold DAGResult.Subtree
  exact pairwise_sortStrings_lt ((dfs_nodup d _).1 [] root (by simp))

/-- C5: `Subtree(d, root)` is exactly the set of nodes reachable from
`root` along the directed edges of `d`, always contains `root`, is
strictly sorted lexicographically (hence duplicate-free), and the output
is a function of `d` and `root` alone (the same on repeated calls and
for every receiver). -/
theorem C5_subtree (r : DAGResult) (d : DAG) (root : String) :
    (∀ n, n ∈ r.Subtree d root ↔ Reach d root n)
    ∧ root ∈ r.Subtree d root
    ∧ (r.Subtree d root).Pairwise (fun a b => strLtB a b = true)
    ∧ ∀ r2 : DAGResult, r.Subtree d root = r2.Subtree d root :=
  ⟨fun n => mem_Subtree r d root n,
   (mem_Subtree r d root root).mpr (Reach.refl root),
   Subtree_pairwise_lt r d root,
   fun _ => rfl⟩

theorem fiLeB_total (a b : FrontierItem) : fiLeB a b = true ∨ fiLeB b a = true :=
  strLeB_total a.Job b.Job

theorem fiLeB_trans (a b c : FrontierItem) (h1 : fiLeB a b = true)
    (h2 : fiLeB b c = true) : fiLeB a c = true :=
  strLeB_trans a.Job b.Job c.Job h1 h2

theorem mem_Frontiers_iff (r : DAGResult) (dag : DAG) (it : FrontierItem) :
    it ∈ r.Frontiers dag ↔ ∃ e ∈ dag,
      (r.get e.1).status ≠ JobStatus.success
      ∧ ((r.get e.1).status = JobStatus.failed ∨ (r.get e.1).status = JobStatus.inProgress
          ∨ r.Blockers dag e.1 = [])
      ∧ it = { Job := e.1, Status := (r.get e.1).status, BlockedBy := r.Blockers dag e.1,
               Subtree := r.Subtree (reverseDAG dag) e.1, dagResult := r } := by
  unfold DAGResult.Frontiers
  rw [mem_sortLe, List.mem_filterMap]
  constructor
  · rintro ⟨e, he, hfe⟩
    by_cases h1 : (r.get e.1).status = JobStatus.success
    · rw [if_pos h1] at hfe
      simp at hfe
    · rw [if_neg h1] at hfe
      by_cases h2 : (r.get e.1).status = JobStatus.failed ∨
          (r.get e.1).status = JobStatus.inProgress ∨ r.Blockers dag e.1 = []
      · rw [if_pos h2] at hfe
        injection hfe with hfe
        exact ⟨e, he, h1, h2, hfe.symm⟩
      · rw [if_neg h2] at hfe
        simp at hfe
  · rintro ⟨e, he, h1, h2, rfl⟩
    exact ⟨e, he, by rw [if_neg h1, if_pos h2]⟩

/-- C2: `Frontiers(dag)` contains an item for a job of the DAG exactly
when its status is not Success and it is Failed, InProgress, or has no
unmet blockers; it never contains a Success item, always contains every
Failed and InProgress job, and is sorted by job name. -/
theorem C2_frontiers (r : DAGResult) (dag : DAG) :
    (∀ j, (∃ it ∈ r.Frontiers dag, it.Job = j) ↔
      (j ∈ keysA dag ∧ (r.get j).status ≠ JobStatus.success ∧
        ((r.get j).status = JobStatus.failed ∨ (r.get j).status = JobStatus.inProgress ∨
          r.Blockers dag j = [])))
    ∧ (∀ it ∈ r.Frontiers dag, it.Status ≠ JobStatus.success)
    ∧ (∀ j ∈ keysA dag, (r.get j).status = JobStatus.failed →
        ∃ it ∈ r.Frontiers dag, it.Job = j)
    ∧ (∀ j ∈ keysA dag, (r.get j).status = JobStatus.inProgress →
        ∃ it ∈ r.Frontiers dag, it.Job = j)
    ∧ (r.Frontiers dag).Pairwise (fun a b => strLeB a.Job b.Job = true) := by
  have hmain : ∀ j, (∃ it ∈ r.Frontiers dag, it.Job = j) ↔
      (j ∈ keysA dag ∧ (r.get j).status ≠ JobStatus.success ∧
        ((r.get j).status = JobStatus.failed ∨ (r.get j).status = JobStatus.inProgress ∨
          r.Blockers dag j = [])) := by
    intro j
    constructor
    · rintro ⟨it, hit, rfl⟩
      obtain ⟨e, he, h1, h2, rfl⟩ := (mem_Frontiers_iff r dag it).mp hit
      exact ⟨List.mem_map.mpr ⟨e, he, rfl⟩, h1, h2⟩
    · rintro ⟨hj, h1, h2⟩
      obtain ⟨v, hv⟩ := mem_keysA.mp hj
      refine ⟨{ Job := j, Status := (r.get j).status, BlockedBy := r.Blockers dag j,
                Subtree := r.Subtree (reverseDAG dag) j, dagResult := r },
        (mem_Frontiers_iff r dag _).mpr ⟨(j, v), hv, h1, h2, rfl⟩, rfl⟩
  refine ⟨hmain, ?_, ?_, ?_, ?_⟩
  · intro it hit
    obtain ⟨e, he, h1, _, rfl⟩ := (mem_Frontiers_iff r dag it).mp hit
    exact h1
  · intro j hj hst
    refine (hmain j).mpr ⟨hj, ?_, Or.inl hst⟩
    rw [hst]
    exact fun h => JobStatus.noConfusion h
  · intro j hj hst
    refine (hmain j).mpr ⟨hj, ?_, Or.inr (Or.inl hst)⟩
    rw [hst]
    exact fun h => JobStatus.noConfusion h
  · exact (pairwise_sortLe fiLeB_total fiLeB_trans _).imp (fun h => h)

/-- C4: every item of `Frontiers(dag)` carries as its `Subtree` the
sorted list of the jobs reachable from the item's job over the reverse
graph (the jobs that transitively depend on it, the job included). -/
theorem C4_frontier_subtree (r : DAGResult) (dag : DAG) :
    ∀ it ∈ r.Frontiers dag,
      (∀ n, n ∈ it.Subtree ↔ Reach (reverseDAG dag) it.Job n)
      ∧ it.Subtree.Pairwise (fun a b => strLtB a b = true) := by
  intro it hit
  obtain ⟨e, he, h1, h2, rfl⟩ := (mem_Frontiers_iff r dag it).mp hit
  exact ⟨fun n => mem_Subtree r (reverseDAG dag) e.1 n,
    Subtree_pairwise_lt r (reverseDAG dag) e.1⟩

/-- Witness for C4 at a concrete frontier item. -/
theorem C4_witness :
    itC4w ∈ DAGResult.Frontiers rC1cex dC4w
    ∧ ((∀ n, n ∈ itC4w.Subtree ↔ Reach (reverseDAG dC4w) itC4w.Job n)
      ∧ itC4w.Subtree.Pairwise (fun a b => strLtB a b = true)) :=
  ⟨by decide, C4_frontier_subtree rC1cex dC4w itC4w (by decide)⟩

/-! Correctness of the memoised dfs of BoundarySubtrees. -/

theorem reachPlus_iff (g : DAG) (j n : String) :
    ReachPlus g j n ↔ ∃ s ∈ adj g j, n = s ∨ ReachPlus g s n := by
  constructor
  · intro h
    cases h with
    | single hs => exact ⟨_, hs, Or.inl rfl⟩
    | step hs hr => exact ⟨_, hs, Or.inr hr⟩
  · rintro ⟨s, hs, rfl | hr⟩
    · exact ReachPlus.single hs
    · exact ReachPlus.step hs hr

theorem bad_iff (g : DAG) (r : DAGResult) (j : String) :
    (∃ n, ReachPlus g j n ∧ r.isSuccess n = false) ↔
    ∃ s ∈ adj g j,
      r.isSuccess s = false ∨ ∃ n, ReachPlus g s n ∧ r.isSuccess n = false := by
  constructor
  · rintro ⟨n, hr, hb⟩
    rcases (reachPlus_iff g j n).mp hr with ⟨s, hs, heq | hr2⟩
    · subst heq
      exact ⟨n, hs, Or.inl hb⟩
    · exact ⟨s, hs, Or.inr ⟨n, hr2, hb⟩⟩
  · rintro ⟨s, hs, hb | ⟨n, hr, hb⟩⟩
    · exact ⟨s, ReachPlus.single hs, hb⟩
    · exact ⟨n, ReachPlus.step hs hr, hb⟩

theorem foldl_eq_hnsSeq (g : DAG) (r : DAGResult) (fuel : Nat) (visiting : List String)
    (acc : Bool × List (String × Bool)) (l : List String) :
    l.foldl (fun acc s =>
      if acc.1 then acc
      else if r.isSuccess s then hnsNode g r fuel visiting acc.2 s
      else (true, acc.2)) acc = hnsSeq g r fuel visiting acc l := rfl

theorem hnsSeq_true (g : DAG) (r : DAGResult) (fuel : Nat) (visiting : List String)
    (m : List (String × Bool)) : ∀ l : List String,
    hnsSeq g r fuel visiting (true, m) l = (true, m) := by
  intro l
  induction l with
  | nil => rfl
  | cons s rest ih =>
    rw [hnsSeq, List.foldl_cons]
    exact ih

theorem hnsNode_memoHit (g : DAG) (r : DAGResult) (fuel : Nat) (visiting : List String)
    (memo : List (String × Bool)) (job : String) (v : Bool)
    (hmj : lookupA memo job = some v) :
    hnsNode g r (fuel + 1) visiting memo job = (v, memo) := by
  rw [hnsNode, hmj]

theorem hnsNode_go (g : DAG) (r : DAGResult) (fuel : Nat) (visiting : List String)
    (memo : List (String × Bool)) (job : String)
    (hmj : lookupA memo job = none) (hjv : job ∉ visiting) :
    hnsNode g r (fuel + 1) visiting memo job =
      ((hnsSeq g r fuel (job :: visiting) (false, memo) (adj g job)).1,
        (job, (hnsSeq g r fuel (job :: visiting) (false, memo) (adj g job)).1)
          :: (hnsSeq g r fuel (job :: visiting) (false, memo) (adj g job)).2) := by
  rcases hres : hnsSeq g r fuel (job :: visiting) (false, memo) (adj g job) with ⟨b, m⟩
  rw [hnsNode, hmj, foldl_eq_hnsSeq, hres]
  simp [hjv]

theorem hnsSeq_cons (g : DAG) (r : DAGResult) (fuel : Nat) (visiting : List String)
    (memo : List (String × Bool)) (s : String) (rest : List String) :
    hnsSeq g r fuel visiting (false, memo) (s :: rest) =
      if r.isSuccess s then
        hnsSeq g r fuel visiting (hnsNode g r fuel visiting memo s) rest
      else (true, memo) := by
  by_cases hsucc : r.isSuccess s = true
  · rw [if_pos hsucc, hnsSeq, hnsSeq, List.foldl_cons]
    simp [hsucc]
  · rw [if_neg hsucc, hnsSeq, List.foldl_cons]
    have hs2 : r.isSuccess s = false := by
      rcases h : r.isSuccess s with _ | _
      · rfl
      · exact absurd h hsucc
    simp [hs2, foldl_eq_hnsSeq, hnsSeq_true]

theorem hns_spec (g : DAG) (r : DAGResult) (rank : String → Nat)
    (hrank : ∀ a b, b ∈ adj g a → rank b < rank a) : ∀ fuel : Nat,
    (∀ visiting memo job, MemoOK g r memo → (∀ v ∈ visiting, rank job < rank v) →
      rank job < fuel →
      MemoOK g r (hnsNode g r fuel visiting memo job).2
      ∧ ((hnsNode g r fuel visiting memo job).1 = true ↔
          ∃ n, ReachPlus g job n ∧ r.isSuccess n = false))
    ∧ (∀ l visiting memo, MemoOK g r memo →
        (∀ s ∈ l, rank s < fuel ∧ ∀ v ∈ visiting, rank s < rank v) →
        MemoOK g r (hnsSeq g r fuel visiting (false, memo) l).2
        ∧ ((hnsSeq g r fuel visiting (false, memo) l).1 = true ↔
            ∃ s ∈ l, r.isSuccess s = false
              ∨ ∃ n, ReachPlus g s n ∧ r.isSuccess n = false)) := by
  intro fuel
  induction fuel with
  | zero =>
    constructor
    · intro visiting memo job _ _ hrf
      omega
    · intro l visiting memo hM hcond
      cases l with
      | nil => exact ⟨hM, by simp [hnsSeq]⟩
      | cons s rest =>
        have := (hcond s (List.mem_cons_self _ _)).1
        omega
  | succ fuel ihf =>
    have hnode : ∀ visiting memo job, MemoOK g r memo →
        (∀ v ∈ visiting, rank job < rank v) → rank job < fuel + 1 →
        MemoOK g r (hnsNode g r (fuel + 1) visiting memo job).2
        ∧ ((hnsNode g r (fuel + 1) visiting memo job).1 = true ↔
            ∃ n, ReachPlus g job n ∧ r.isSuccess n = false) := by
      intro visiting memo job hM hV hrf
      rcases hmj : lookupA memo job with _ | v
      · by_cases hjv : job ∈ visiting
        · exact absurd (hV job hjv) (lt_irrefl _)
        · rw [hnsNode_go g r fuel visiting memo job hmj hjv]
          have hconds : ∀ s ∈ adj g job,
              rank s < fuel ∧ ∀ v ∈ job :: visiting, rank s < rank v := by
            intro s hs
            have h1 : rank s < rank job := hrank job s hs
            refine ⟨by omega, ?_⟩
            intro v hv
            rcases List.mem_cons.mp hv with rfl | hv
            · exact h1
            · exact lt_trans h1 (hV v hv)
          have hseq := ihf.2 (adj g job) (job :: visiting) memo hM hconds
          constructor
          · intro j2 b2 hlook
            by_cases hj2 : job = j2
            · subst hj2
              rw [show lookupA
                    ((job, (hnsSeq g r fuel (job :: visiting) (false, memo) (adj g job)).1)
                      :: (hnsSeq g r fuel (job :: visiting) (false, memo) (adj g job)).2) job
                  = some (hnsSeq g r fuel (job :: visiting) (false, memo) (adj g job)).1
                from by simp [lookupA]] at hlook
              injection hlook with hlook
              subst hlook
              exact (hseq.2).trans (bad_iff g r job).symm
            · rw [show lookupA
                    ((job, (hnsSeq g r fuel (job :: visiting) (false, memo) (adj g job)).1)
                      :: (hnsSeq g r fuel (job :: visiting) (false, memo) (adj g job)).2) j2
                  = lookupA (hnsSeq g r fuel (job :: visiting) (false, memo) (adj g job)).2 j2
                from by simp [lookupA, hj2]] at hlook
              exact hseq.1 j2 b2 hlook
          · exact (hseq.2).trans (bad_iff g r job).symm
      · rw [hnsNode_memoHit g r fuel visiting memo job v hmj]
        exact ⟨hM, hM job v hmj⟩
    refine ⟨hnode, ?_⟩
    intro l
    induction l with
    | nil =>
      intro visiting memo hM hcond
      exact ⟨hM, by simp [hnsSeq]⟩
    | cons s rest ihl =>
      intro visiting memo hM hcond
      rw [hnsSeq_cons]
      by_cases hsucc : r.isSuccess s = true
      · rw [if_pos hsucc]
        have hnd := hnode visiting memo s hM (hcond s (List.mem_cons_self _ _)).2
          (hcond s (List.mem_cons_self _ _)).1
        rcases hb : hnsNode g r (fuel + 1) visiting memo s with ⟨b1, m1⟩
        rw [hb] at hnd
        rcases b1 with _ | _
        · have hrest := ihl visiting m1 hnd.1
            (fun x hx => hcond x (List.mem_cons_of_mem _ hx))
          refine ⟨hrest.1, ?_⟩
          rw [hrest.2]
          have hbadS : ¬(r.isSuccess s = false
              ∨ ∃ n, ReachPlus g s n ∧ r.isSuccess n = false) := by
            rintro (h | h)
            · rw [hsucc] at h
              exact Bool.noConfusion h
            · have h2 := hnd.2.mpr h
              simp at h2
          constructor
          · rintro ⟨x, hx, hgood⟩
            exact ⟨x, List.mem_cons_of_mem _ hx, hgood⟩
          · rintro ⟨x, hx, hgood⟩
            rcases List.mem_cons.mp hx with rfl | hx
            · exact absurd hgood hbadS
            · exact ⟨x, hx, hgood⟩
        · rw [hnsSeq_true]
          exact ⟨hnd.1,
            fun _ => ⟨s, List.mem_cons_self _ _, Or.inr (hnd.2.mp rfl)⟩,
            fun _ => rfl⟩
      · rw [if_neg hsucc]
        have hs2 : r.isSuccess s = false := by
          rcases h : r.isSuccess s with _ | _
          · rfl
          · exact absurd h hsucc
        exact ⟨hM,
          fun _ => ⟨s, List.mem_cons_self _ _, Or.inl hs2⟩,
          fun _ => rfl⟩

theorem boundary_fold (g : DAG) (r : DAGResult) (rank : String → Nat)
    (hrank : ∀ a b, b ∈ adj g a → rank b < rank a) (fuel : Nat) :
    ∀ (entries : List (String × List String)) (out : List String)
      (memo : List (String × Bool)), MemoOK g r memo →
      (∀ e ∈ entries, rank e.1 < fuel) →
      MemoOK g r (entries.foldl (boundaryStep g r fuel) (out, memo)).2
      ∧ ∀ j, j ∈ (entries.foldl (boundaryStep g r fuel) (out, memo)).1 ↔
          j ∈ out ∨ ((∃ e ∈ entries, e.1 = j) ∧ r.isSuccess j = true
            ∧ ∃ n, ReachPlus g j n ∧ r.isSuccess n = false) := by
  intro entries
  induction entries with
  | nil =>
    intro out memo hM _
    refine ⟨hM, ?_⟩
    intro j
    simp
  | cons e entries ih =>
    intro out memo hM hranks
    rw [List.foldl_cons]
    by_cases hsucc : r.isSuccess e.1 = true
    · have hrankE : rank e.1 < fuel := hranks e (List.mem_cons_self _ _)
      have hnd := (hns_spec g r rank hrank fuel).1 [] memo e.1 hM (by simp) hrankE
      rcases hb : hnsNode g r fuel [] memo e.1 with ⟨b, m⟩
      rw [hb] at hnd
      have hstep : boundaryStep g r fuel (out, memo) e
          = (if b then out ++ [e.1] else out, m) := by
        unfold boundaryStep
        rw [if_pos hsucc, hb]
      rw [hstep]
      have hrest := ih (if b then out ++ [e.1] else out) m hnd.1
        (fun x hx => hranks x (List.mem_cons_of_mem _ hx))
      refine ⟨hrest.1, ?_⟩
      intro j
      rw [hrest.2 j]
      rcases b with _ | _
      · rw [show (if (false : Bool) then out ++ [e.1] else out) = out from rfl]
        have hnb : ¬∃ n, ReachPlus g e.1 n ∧ r.isSuccess n = false := by
          intro h
          have h2 := hnd.2.mpr h
          simp at h2
        constructor
        · rintro (h | ⟨⟨e2, he2, heq⟩, hsj, hbj⟩)
          · exact Or.inl h
          · exact Or.inr ⟨⟨e2, List.mem_cons_of_mem _ he2, heq⟩, hsj, hbj⟩
        · rintro (h | ⟨⟨e2, he2, heq⟩, hsj, hbj⟩)
          · exact Or.inl h
          · rcases List.mem_cons.mp he2 with rfl | he2
            · exact absurd (heq ▸ hbj) hnb
            · exact Or.inr ⟨⟨e2, he2, heq⟩, hsj, hbj⟩
      · rw [show (if (true : Bool) then out ++ [e.1] else out) = out ++ [e.1] from rfl]
        constructor
        · rintro (h | ⟨⟨e2, he2, heq⟩, hsj, hbj⟩)
          · rcases List.mem_append.mp h with h | h
            · exact Or.inl h
            · have hj : j = e.1 := by simpa using h
              subst hj
              exact Or.inr ⟨⟨e, List.mem_cons_self _ _, rfl⟩, hsucc, hnd.2.mp rfl⟩
          · exact Or.inr ⟨⟨e2, List.mem_cons_of_mem _ he2, heq⟩, hsj, hbj⟩
        · rintro (h | ⟨⟨e2, he2, heq⟩, hsj, hbj⟩)
          · exact Or.inl (List.mem_append.mpr (Or.inl h))
          · rcases List.mem_cons.mp he2 with rfl | he2
            · exact Or.inl (List.mem_append.mpr (Or.inr (by simp [heq])))
            · exact Or.inr ⟨⟨e2, he2, heq⟩, hsj, hbj⟩
    · have hstep : boundaryStep g r fuel (out, memo) e = (out, memo) := by
        unfold boundaryStep
        rw [if_neg hsucc]
      rw [hstep]
      have hrest := ih out memo hM (fun x hx => hranks x (List.mem_cons_of_mem _ hx))
      refine ⟨hrest.1, ?_⟩
      intro j
      rw [hrest.2 j]
      constructor
      · rintro (h | ⟨⟨e2, he2, heq⟩, hsj, hbj⟩)
        · exact Or.inl h
        · exact Or.inr ⟨⟨e2, List.mem_cons_of_mem _ he2, heq⟩, hsj, hbj⟩
      · rintro (h | ⟨⟨e2, he2, heq⟩, hsj, hbj⟩)
        · exact Or.inl h
        · rcases List.mem_cons.mp he2 with rfl | he2
          · rw [← heq] at hsj
            exact absurd hsj hsucc
          · exact Or.inr ⟨⟨e2, he2, heq⟩, hsj, hbj⟩

theorem reachPlus_rev_target {dag : DAG} {a n : String}
    (h : ReachPlus (reverseDAG dag) a n) : n ∈ keysA dag := by
  induction h with
  | @single a s hs =>
    obtain ⟨e, he, heq, _⟩ := (adj_reverseDAG_mem dag a s).mp hs
    exact heq ▸ List.mem_map.mpr ⟨e, he, rfl⟩
  | step _ _ ih => exact ih

/-- C3: `BoundarySubtrees(dag)` contains a job exactly when the job is
Success and at least one node in its reverse-reachable successor set is
not Success; when every job is Success the result is empty.  The rank
hypotheses state that the DAG (equivalently its reverse) is acyclic,
witnessed by a height function bounded by the number of nodes. -/
theorem C3_boundarySubtrees (r : DAGResult) (dag : DAG) (rank : String → Nat)
    (hrank : ∀ e ∈ reverseDAG dag, ∀ b ∈ e.2, rank b < rank e.1)
    (hbound : ∀ j ∈ keysA dag, rank j ≤ (keysA (reverseDAG dag)).length) :
    (∀ j, j ∈ r.BoundarySubtrees dag ↔
      (j ∈ keysA dag ∧ r.isSuccess j = true ∧
        ∃ n, ReachPlus (reverseDAG dag) j n ∧ r.isSuccess n = false))
    ∧ ((∀ k ∈ keysA dag, r.isSuccess k = true) → r.BoundarySubtrees dag = []) := by
  have hrank2 : ∀ a b, b ∈ adj (reverseDAG dag) a → rank b < rank a := by
    intro a b hb
    unfold adj at hb
    rcases hv : lookupA (reverseDAG dag) a with _ | l
    · rw [hv] at hb
      simp at hb
    · rw [hv] at hb
      exact hrank (a, l) (lookupA_mem hv) b hb
  have hfold := boundary_fold (reverseDAG dag) r rank hrank2
    ((keysA (reverseDAG dag)).length + 1) dag [] []
    (fun j b h => by simp [lookupA] at h)
    (fun e he => by
      have := hbound e.1 (List.mem_map.mpr ⟨e, he, rfl⟩)
      omega)
  have hmem : ∀ j, j ∈ r.BoundarySubtrees dag ↔
      (j ∈ keysA dag ∧ r.isSuccess j = true ∧
        ∃ n, ReachPlus (reverseDAG dag) j n ∧ r.isSuccess n = false) := by
    intro j
    unfold DAGResult.BoundarySubtrees
    rw [mem_sortStrings, hfold.2 j]
    simp only [List.not_mem_nil, false_or]
    constructor
    · rintro ⟨⟨e, he, heq⟩, h2, h3⟩
      exact ⟨heq ▸ List.mem_map.mpr ⟨e, he, rfl⟩, h2, h3⟩
    · rintro ⟨hk, h2, h3⟩
      obtain ⟨v, hv⟩ := mem_keysA.mp hk
      exact ⟨⟨(j, v), hv, rfl⟩, h2, h3⟩
  refine ⟨hmem, ?_⟩
  intro hall
  rw [List.eq_nil_iff_forall_not_mem]
  intro j hj
  obtain ⟨hk, _, n, hrn, hbadn⟩ := (hmem j).mp hj
  have h2 := hall n (reachPlus_rev_target hrn)
  rw [h2] at hbadn
  exact Bool.noConfusion hbadn

/-- Witness for C3 at a concrete two-node run where only "a" is Success
and its dependant "b" is not. -/
theorem C3_witness :
    ((∀ e ∈ reverseDAG dC3w, ∀ b ∈ e.2, rankC3w b < rankC3w e.1)
      ∧ ∀ j ∈ keysA dC3w, rankC3w j ≤ (keysA (reverseDAG dC3w)).length)
    ∧ ((∀ j, j ∈ DAGResult.BoundarySubtrees rC3w dC3w ↔
        (j ∈ keysA dC3w ∧ DAGResult.isSuccess rC3w j = true ∧
          ∃ n, ReachPlus (reverseDAG dC3w) j n ∧ DAGResult.isSuccess rC3w n = false))
      ∧ ((∀ k ∈ keysA dC3w, DAGResult.isSuccess rC3w k = true) →
          DAGResult.BoundarySubtrees rC3w dC3w = [])) :=
  ⟨⟨by decide, by decide⟩, C3_boundarySubtrees rC3w dC3w rankC3w (by decide) (by decide)⟩

/-- Witness for C2 at a concrete run and DAG. -/
theorem C2_witness :
    (∀ j, (∃ it ∈ DAGResult.Frontiers rC1cex dC4w, it.Job = j) ↔
      (j ∈ keysA dC4w ∧ (DAGResult.get rC1cex j).status ≠ JobStatus.success ∧
        ((DAGResult.get rC1cex j).status = JobStatus.failed ∨
          (DAGResult.get rC1cex j).status = JobStatus.inProgress ∨
          DAGResult.Blockers rC1cex dC4w j = [])))
    ∧ (∀ it ∈ DAGResult.Frontiers rC1cex dC4w, it.Status ≠ JobStatus.success)
    ∧ (∀ j ∈ keysA dC4w, (DAGResult.get rC1cex j).status = JobStatus.failed →
        ∃ it ∈ DAGResult.Frontiers rC1cex dC4w, it.Job = j)
    ∧ (∀ j ∈ keysA dC4w, (DAGResult.get rC1cex j).status = JobStatus.inProgress →
        ∃ it ∈ DAGResult.Frontiers rC1cex dC4w, it.Job = j)
    ∧ (DAGResult.Frontiers rC1cex dC4w).Pairwise (fun a b => strLeB a.Job b.Job = true) :=
  C2_frontiers rC1cex dC4w

/-- Witness for C5 at a concrete DAG and root. -/
theorem C5_witness :
    (∀ n, n ∈ DAGResult.Subtree rC1cex dC3w "b" ↔ Reach dC3w "b" n)
    ∧ "b" ∈ DAGResult.Subtree rC1cex dC3w "b"
    ∧ (DAGResult.Subtree rC1cex dC3w "b").Pairwise (fun a b => strLtB a b = true)
    ∧ ∀ r2 : DAGResult, DAGResult.Subtree rC1cex dC3w "b" = DAGResult.Subtree r2 dC3w "b" :=
  C5_subtree rC1cex dC3w "b"
